import Mathlib

/-!
Verification of the polynomial-buffer engine (arith_buffers) and the
renaming context (renaming_context) of this repository.

The repository ships the interfaces src/arith_buffers.h and
src/renaming_context.h.  The corresponding .c implementation files are not
part of the sources, so the bodies of the extern functions are modelled
from the specification (spec.md sections 3, 4.1, 4.2, 4.3); the static
inline functions of the headers (arith_buffer_size, arith_buffer_is_zero,
arith_buffer_add_var, arith_buffer_mul_var, renaming_ctx_lookup, ...) are
embedded directly from their header bodies.

Representation choices:
- a power product (pprod_t) is an exponent vector, one exponent per
  variable; interning makes structural equality coincide with object
  identity, so we use plain lists of exponents (canonical vectors have no
  trailing zero entry, which empty_pp, var_pp and ppMul preserve);
- rational_t is the exact rational type ℚ;
- the monomial list of a buffer is a Lean list of monomials; the end
  marker (sentinel node carrying end_pp, which compares greater than every
  real product) is left implicit: inserting before the sentinel is
  appending at the end of the Lean list.
-/

/-- Exponent vector of a power product: entry i is the exponent of
variable i.  Canonical vectors carry no trailing zero. -/
abbrev PP := List Nat

/-- Total degree of a power product: the sum of the exponents. -/
def ppDeg (p : PP) : Nat := p.sum

/-- Lexicographic comparison of exponent vectors, the tie-break of the
deg-lex order (spec section 3: secondary key lexicographic comparison of
exponents). -/
def lexLt : PP → PP → Prop
  | _, [] => False
  | [], _ :: _ => True
  | a :: p, b :: q => a < b ∨ (a = b ∧ lexLt p q)

instance lexLt.dec : (p q : PP) → Decidable (lexLt p q)
  | p, [] => by cases p <;> exact isFalse (fun h => h)
  | [], _ :: _ => isTrue trivial
  | a :: p, b :: q =>
    have : Decidable (lexLt p q) := lexLt.dec p q
    by unfold lexLt; infer_instance

/-- Modelled from the spec: the total order of the power-product table
(pprod_table.c is absent from src).  Primary key total degree, secondary
key lexicographic comparison of exponents (spec sections 2, 3). -/
def ppLt (p q : PP) : Prop :=
  ppDeg p < ppDeg q ∨ (ppDeg p = ppDeg q ∧ lexLt p q)

instance ppLt.dec (p q : PP) : Decidable (ppLt p q) := by
  unfold ppLt; infer_instance

/-- Modelled from the spec: multiplication of two power products
(pprod_table.c is absent from src): exponent vectors add pointwise. -/
def ppMul : PP → PP → PP
  | [], q => q
  | p, [] => p
  | a :: p, b :: q => (a + b) :: ppMul p q

/-- The empty power product (degree-0 constant part). -/
def empty_pp : PP := []

/-- The power product consisting of the single variable x. -/
def var_pp (x : Nat) : PP := List.replicate x 0 ++ [1]

/-- A monomial: the payload of an mlist_t node, a coefficient (rational_t)
together with a power product. -/
structure Mono where
  coeff : ℚ
  prod : PP
  deriving DecidableEq

/-- The buffer arith_buffer_t: nterms and the monomial list (the end
marker is implicit, see the file comment). -/
structure arith_buffer_t where
  nterms : Nat
  list : List Mono
  deriving DecidableEq

/-- init_arith_buffer yields the zero polynomial: list reduced to the end
marker, nterms = 0. -/
def init_arith_buffer : arith_buffer_t := ⟨0, []⟩

/-- Modelled from the spec: the Locate-or-insert primitive of section 4.1
(arith_buffers.c is absent from src).  Scan forward while the current
product is less than r; on an equal product add the coefficient in place
(the result may become zero); otherwise splice a new node before the
first greater node.  The implicit sentinel makes the end-of-list case an
append. -/
def addMonoToList (l : List Mono) (a : ℚ) (r : PP) : List Mono :=
  match l with
  | [] => [⟨a, r⟩]
  | m :: t =>
    if ppLt m.prod r then m :: addMonoToList t a r
    else if m.prod = r then ⟨m.coeff + a, r⟩ :: t
    else ⟨a, r⟩ :: m :: t

/-- Modelled from the spec: the sorted-merge primitive of section 4.1
(arith_buffers.c is absent from src).  Repeatedly compare head products;
on a tie sum the coefficients into the kept node and advance both;
otherwise splice the lesser node. -/
def mergeMlist : List Mono → List Mono → List Mono
  | [], l2 => l2
  | l1, [] => l1
  | m1 :: t1, m2 :: t2 =>
    if ppLt m1.prod m2.prod then m1 :: mergeMlist t1 (m2 :: t2)
    else if m1.prod = m2.prod then
      ⟨m1.coeff + m2.coeff, m1.prod⟩ :: mergeMlist t1 t2
    else m2 :: mergeMlist (m1 :: t1) t2
  termination_by l1 l2 => l1.length + l2.length

/-- Negated copy of a monomial list (used by subtraction, spec section
4.2: subtract = merge against a negated copy). -/
def negateMlist (l : List Mono) : List Mono :=
  l.map (fun m => ⟨-m.coeff, m.prod⟩)

/-- Modelled from the spec: arith_buffer_normalize (arith_buffers.c is
absent from src).  Single forward pass removing every node whose
coefficient is zero, recomputing the term count (spec section 4.1). -/
def arith_buffer_normalize (b : arith_buffer_t) : arith_buffer_t :=
  let l := b.list.filter (fun m => m.coeff ≠ 0)
  ⟨l.length, l⟩

/-- arith_buffer_size, from the header body: b.nterms. -/
def arith_buffer_size (b : arith_buffer_t) : Nat := b.nterms

/-- arith_buffer_is_zero, from the header body: nterms == 0 (b must be
normalized). -/
def arith_buffer_is_zero (b : arith_buffer_t) : Bool := b.nterms == 0

/-- Modelled from the spec: arith_buffer_degree (arith_buffers.c is
absent from src).  0 if b is zero, otherwise the total degree of the
maximal (last) term of the list (spec section 4.3). -/
def arith_buffer_degree (b : arith_buffer_t) : Nat :=
  match b.list.getLast? with
  | none => 0
  | some m => ppDeg m.prod

/-- Modelled from the spec: arith_buffer_add_buffer (arith_buffers.c is
absent from src): sorted merge of the two monomial lists (spec section
4.2). -/
def arith_buffer_add_buffer (b b1 : arith_buffer_t) : arith_buffer_t :=
  let l := mergeMlist b.list b1.list
  ⟨l.length, l⟩

/-- Modelled from the spec: arith_buffer_sub_buffer (arith_buffers.c is
absent from src): merge against a negated copy of b1 (spec section
4.2). -/
def arith_buffer_sub_buffer (b b1 : arith_buffer_t) : arith_buffer_t :=
  let l := mergeMlist b.list (negateMlist b1.list)
  ⟨l.length, l⟩

/-- Modelled from the spec: arith_buffer_add_const (arith_buffers.c is
absent from src): one Locate-or-insert of the constant at the empty
product (spec section 4.2). -/
def arith_buffer_add_const (b : arith_buffer_t) (a : ℚ) : arith_buffer_t :=
  let l := addMonoToList b.list a empty_pp
  ⟨l.length, l⟩

/-- Modelled from the spec: arith_buffer_add_pp (arith_buffers.c is
absent from src): one Locate-or-insert of coefficient 1 at product r
(spec section 4.2). -/
def arith_buffer_add_pp (b : arith_buffer_t) (r : PP) : arith_buffer_t :=
  let l := addMonoToList b.list 1 r
  ⟨l.length, l⟩

/-- Modelled from the spec: arith_buffer_mul_pp (arith_buffers.c is
absent from src): the Shift primitive, multiplying every product by r;
order-compatibility of the table order preserves sortedness (spec
section 4.1). -/
def arith_buffer_mul_pp (b : arith_buffer_t) (r : PP) : arith_buffer_t :=
  ⟨b.nterms, b.list.map (fun m => ⟨m.coeff, ppMul m.prod r⟩)⟩

/-- arith_buffer_add_var, from the header body:
arith_buffer_add_pp b (var_pp x). -/
def arith_buffer_add_var (b : arith_buffer_t) (x : Nat) : arith_buffer_t :=
  arith_buffer_add_pp b (var_pp x)

/-- arith_buffer_mul_var, from the header body:
arith_buffer_mul_pp b (var_pp x). -/
def arith_buffer_mul_var (b : arith_buffer_t) (x : Nat) : arith_buffer_t :=
  arith_buffer_mul_pp b (var_pp x)

/-- Modelled from the spec: arith_buffer_add_pp_times_buffer
(arith_buffers.c is absent from src): for each term of the source buffer
b1, one Locate-or-insert into b with product = term.product times r and
coefficient = term.coefficient (spec section 4.2). -/
def arith_buffer_add_pp_times_buffer (b b1 : arith_buffer_t) (r : PP) :
    arith_buffer_t :=
  let l := b1.list.foldl (fun acc m => addMonoToList acc m.coeff (ppMul m.prod r)) b.list
  ⟨l.length, l⟩

/-- Modelled from the spec: arith_buffer_mul_buffer (arith_buffers.c is
absent from src): save b, reset b, then for every term (a1,p1) of the
saved list and every term (a2,p2) of b1, Locate-or-insert (a1*a2, p1*p2)
into b (spec section 4.2); b1 must be different from b. -/
def arith_buffer_mul_buffer (b b1 : arith_buffer_t) : arith_buffer_t :=
  let l := b.list.foldl
    (fun acc m1 => b1.list.foldl
      (fun acc2 m2 => addMonoToList acc2 (m1.coeff * m2.coeff) (ppMul m1.prod m2.prod))
      acc)
    []
  ⟨l.length, l⟩

/-- Semantics of a monomial list: the total coefficient it carries at a
given power product. -/
def toCoeff : List Mono → PP → ℚ
  | [], _ => 0
  | m :: t, q => (if m.prod = q then m.coeff else 0) + toCoeff t q

/-- Order on monomials induced by the deg-lex order of their products. -/
def MLt (m1 m2 : Mono) : Prop := ppLt m1.prod m2.prod

instance MLt.dec (m1 m2 : Mono) : Decidable (MLt m1 m2) := by
  unfold MLt; infer_instance

/-- Invariant I1 of the spec: the non-sentinel nodes are strictly
increasing in the deg-lex order. -/
def MSorted (l : List Mono) : Prop := l.Pairwise MLt

instance MSorted.dec (l : List Mono) : Decidable (MSorted l) := by
  unfold MSorted; infer_instance

/-- NULL_TERM: the -1 marker returned by lookups on absent variables. -/
def NULL_TERM : Int := -1

/-- Modelled from the spec: subst_ctx_lookup (subst_context.h/.c are
absent from src).  The renaming context stores a mapping from variables
to fresh variables (spec sections 1, 2); the most recent binding of x is
returned, NULL_TERM when x is unbound. -/
def subst_ctx_lookup : List (Int × Int) → Int → Int
  | [], _ => NULL_TERM
  | (y, v) :: t, x => if y = x then v else subst_ctx_lookup t x

/-- The renaming_ctx_t structure, reduced to the substitution table the
lookup consults (rename and hash play no role in lookups); the head of
the list is the most recent binding. -/
structure renaming_ctx_t where
  subst : List (Int × Int)

/-- renaming_ctx_lookup, from the header body:
subst_ctx_lookup on the subst field. -/
def renaming_ctx_lookup (ctx : renaming_ctx_t) (x : Int) : Int :=
  subst_ctx_lookup ctx.subst x

/-- Specification-side reading of the renaming context: the variable ctx
maps x to, if any (the most recent binding of x). -/
def ctx_renames (ctx : renaming_ctx_t) (x : Int) : Option Int :=
  (ctx.subst.find? (fun p => p.1 == x)).map (fun p => p.2)

theorem lexLt_irr : ∀ p : PP, ¬ lexLt p p := by
  intro p
  induction p with
  | nil => exact fun h => h
  | cons a t ih =>
    intro h
    rcases h with h | ⟨_, h⟩
    · exact Nat.lt_irrefl a h
    · exact ih h

theorem lexLt_tr : ∀ p q r : PP, lexLt p q → lexLt q r → lexLt p r := by
  intro p
  induction p with
  | nil =>
    intro q r h1 h2
    cases q with
    | nil => exact h2
    | cons b bs =>
      cases r with
      | nil => exact absurd h2 (fun h => h)
      | cons c cs => exact trivial
  | cons a as ih =>
    intro q r h1 h2
    cases q with
    | nil => exact absurd h1 (fun h => h)
    | cons b bs =>
      cases r with
      | nil => exact absurd h2 (fun h => h)
      | cons c cs =>
        rcases h1 with h1 | ⟨hab, h1⟩
        · rcases h2 with h2 | ⟨hbc, h2⟩
          · exact Or.inl (Nat.lt_trans h1 h2)
          · exact Or.inl (hbc ▸ h1)
        · rcases h2 with h2 | ⟨hbc, h2⟩
          · exact Or.inl (hab ▸ h2)
          · exact Or.inr ⟨hab.trans hbc, ih bs cs h1 h2⟩

theorem lexLt_conn : ∀ p q : PP, ¬ lexLt p q → ¬ lexLt q p → p = q := by
  intro p
  induction p with
  | nil =>
    intro q h1 h2
    cases q with
    | nil => rfl
    | cons b bs => exact absurd trivial h1
  | cons a as ih =>
    intro q h1 h2
    cases q with
    | nil => exact absurd trivial h2
    | cons b bs =>
      have hab : a = b := by
        rcases Nat.lt_trichotomy a b with h | h | h
        · exact absurd (Or.inl h) h1
        · exact h
        · exact absurd (Or.inl h) h2
      have ht : as = bs := by
        refine ih bs (fun h => h1 (Or.inr ⟨hab, h⟩)) (fun h => h2 (Or.inr ⟨hab.symm, h⟩))
      rw [hab, ht]

theorem ppLt_irr (p : PP) : ¬ ppLt p p := by
  intro h
  rcases h with h | ⟨_, h⟩
  · exact Nat.lt_irrefl _ h
  · exact lexLt_irr p h

theorem ppLt_tr {p q r : PP} (h1 : ppLt p q) (h2 : ppLt q r) : ppLt p r := by
  rcases h1 with h1 | ⟨e1, h1⟩ <;> rcases h2 with h2 | ⟨e2, h2⟩
  · exact Or.inl (Nat.lt_trans h1 h2)
  · exact Or.inl (e2 ▸ h1)
  · exact Or.inl (e1 ▸ h2)
  · exact Or.inr ⟨e1.trans e2, lexLt_tr p q r h1 h2⟩

theorem ppLt_conn {p q : PP} (h1 : ¬ ppLt p q) (h2 : ¬ ppLt q p) : p = q := by
  have hd : ppDeg p = ppDeg q := by
    rcases Nat.lt_trichotomy (ppDeg p) (ppDeg q) with h | h | h
    · exact absurd (Or.inl h) h1
    · exact h
    · exact absurd (Or.inl h) h2
  exact lexLt_conn p q (fun h => h1 (Or.inr ⟨hd, h⟩)) (fun h => h2 (Or.inr ⟨hd.symm, h⟩))

theorem ppLt_asym {p q : PP} (h : ppLt p q) : ¬ ppLt q p :=
  fun h2 => ppLt_irr p (ppLt_tr h h2)

theorem toCoeff_eq_zero {l : List Mono} {q : PP} (h : ∀ m ∈ l, m.prod ≠ q) :
    toCoeff l q = 0 := by
  induction l with
  | nil => rfl
  | cons m t ih =>
    simp only [toCoeff]
    rw [if_neg (h m (List.mem_cons_self m t)), ih (fun m' hm' => h m' (List.mem_cons_of_mem m hm'))]
    ring

theorem toCoeff_addMonoToList (l : List Mono) (a : ℚ) (r q : PP) :
    toCoeff (addMonoToList l a r) q = toCoeff l q + (if r = q then a else 0) := by
  induction l with
  | nil => simp [addMonoToList, toCoeff]
  | cons m t ih =>
    by_cases h1 : ppLt m.prod r
    · simp only [addMonoToList, if_pos h1, toCoeff, ih]; ring
    · by_cases h2 : m.prod = r
      · simp only [addMonoToList]
        rw [if_neg h1, if_pos h2]
        simp only [toCoeff, h2]
        by_cases h3 : r = q
        · simp [h3]; ring
        · simp [h3]
      · simp only [addMonoToList, if_neg h1, if_neg h2, toCoeff]; ring

theorem toCoeff_mergeMlist (l1 l2 : List Mono) (q : PP) :
    toCoeff (mergeMlist l1 l2) q = toCoeff l1 q + toCoeff l2 q := by
  induction l1, l2 using mergeMlist.induct with
  | case1 l2 => simp [mergeMlist, toCoeff]
  | case2 l1 => cases l1 <;> simp [mergeMlist, toCoeff]
  | case3 m1 t1 m2 t2 h ih =>
    simp only [mergeMlist, if_pos h, toCoeff, ih]; ring
  | case4 m1 t1 m2 t2 h1 h2 ih =>
    simp only [mergeMlist, if_neg h1, if_pos h2]
    simp only [toCoeff, ih, h2]
    by_cases h3 : m2.prod = q <;> simp [h3] <;> ring
  | case5 m1 t1 m2 t2 h1 h2 ih =>
    simp only [mergeMlist, if_neg h1, if_neg h2, toCoeff, ih]; ring

theorem toCoeff_filter (l : List Mono) (q : PP) :
    toCoeff (l.filter (fun m => m.coeff ≠ 0)) q = toCoeff l q := by
  induction l with
  | nil => rfl
  | cons m t ih =>
    rw [List.filter_cons]
    by_cases h : m.coeff = 0
    · rw [if_neg (by simp [h]), ih]
      simp [toCoeff, h]
    · rw [if_pos (by simp [h])]
      simp only [toCoeff, ih]

theorem mergeMlist_prods {l1 l2 : List Mono} {x : Mono} (hx : x ∈ mergeMlist l1 l2) :
    (∃ y ∈ l1, y.prod = x.prod) ∨ (∃ y ∈ l2, y.prod = x.prod) := by
  induction l1, l2 using mergeMlist.induct with
  | case1 l2 => exact Or.inr ⟨x, by simpa [mergeMlist] using hx, rfl⟩
  | case2 l1 =>
    cases l1 with
    | nil => exact absurd (by simpa [mergeMlist] using hx) (List.not_mem_nil x)
    | cons m t => exact Or.inl ⟨x, by simpa [mergeMlist] using hx, rfl⟩
  | case3 m1 t1 m2 t2 h ih =>
    rw [mergeMlist, if_pos h] at hx
    rcases List.mem_cons.1 hx with h1 | h1
    · exact Or.inl ⟨m1, List.mem_cons_self m1 t1, by rw [h1]⟩
    · rcases ih h1 with ⟨y, hy, hp⟩ | ⟨y, hy, hp⟩
      · exact Or.inl ⟨y, List.mem_cons_of_mem m1 hy, hp⟩
      · exact Or.inr ⟨y, hy, hp⟩
  | case4 m1 t1 m2 t2 h1 h2 ih =>
    rw [mergeMlist, if_neg h1, if_pos h2] at hx
    rcases List.mem_cons.1 hx with h3 | h3
    · exact Or.inl ⟨m1, List.mem_cons_self m1 t1, by rw [h3]⟩
    · rcases ih h3 with ⟨y, hy, hp⟩ | ⟨y, hy, hp⟩
      · exact Or.inl ⟨y, List.mem_cons_of_mem m1 hy, hp⟩
      · exact Or.inr ⟨y, List.mem_cons_of_mem m2 hy, hp⟩
  | case5 m1 t1 m2 t2 h1 h2 ih =>
    rw [mergeMlist, if_neg h1, if_neg h2] at hx
    rcases List.mem_cons.1 hx with h3 | h3
    · exact Or.inr ⟨m2, List.mem_cons_self m2 t2, by rw [h3]⟩
    · rcases ih h3 with ⟨y, hy, hp⟩ | ⟨y, hy, hp⟩
      · exact Or.inl ⟨y, hy, hp⟩
      · exact Or.inr ⟨y, List.mem_cons_of_mem m2 hy, hp⟩

theorem msorted_mergeMlist {l1 l2 : List Mono} (h1 : MSorted l1) (h2 : MSorted l2) :
    MSorted (mergeMlist l1 l2) := by
  induction l1, l2 using mergeMlist.induct with
  | case1 l2 => simpa [mergeMlist] using h2
  | case2 l1 => cases l1 <;> simpa [mergeMlist] using h1
  | case3 m1 t1 m2 t2 h ih =>
    rw [mergeMlist, if_pos h]
    rcases List.pairwise_cons.1 h1 with ⟨ha1, ht1⟩
    refine List.pairwise_cons.2 ⟨fun x hx => ?_, ih ht1 h2⟩
    rcases mergeMlist_prods hx with ⟨y, hy, hp⟩ | ⟨y, hy, hp⟩
    · exact show ppLt m1.prod x.prod from hp ▸ ha1 y hy
    · rcases List.mem_cons.1 hy with h3 | h3
      · exact show ppLt m1.prod x.prod from hp ▸ h3 ▸ h
      · exact show ppLt m1.prod x.prod from
          hp ▸ ppLt_tr h ((List.pairwise_cons.1 h2).1 y h3)
  | case4 m1 t1 m2 t2 hn1 he ih =>
    rw [mergeMlist, if_neg hn1, if_pos he]
    rcases List.pairwise_cons.1 h1 with ⟨ha1, ht1⟩
    rcases List.pairwise_cons.1 h2 with ⟨ha2, ht2⟩
    refine List.pairwise_cons.2 ⟨fun x hx => ?_, ih ht1 ht2⟩
    rcases mergeMlist_prods hx with ⟨y, hy, hp⟩ | ⟨y, hy, hp⟩
    · exact show ppLt m1.prod x.prod from hp ▸ ha1 y hy
    · exact show ppLt m1.prod x.prod from hp ▸ he ▸ ha2 y hy
  | case5 m1 t1 m2 t2 hn1 hne ih =>
    rw [mergeMlist, if_neg hn1, if_neg hne]
    have h21 : ppLt m2.prod m1.prod := by
      by_contra hc
      exact hne (ppLt_conn hn1 hc)
    rcases List.pairwise_cons.1 h2 with ⟨ha2, ht2⟩
    refine List.pairwise_cons.2 ⟨fun x hx => ?_, ih h1 ht2⟩
    rcases mergeMlist_prods hx with ⟨y, hy, hp⟩ | ⟨y, hy, hp⟩
    · rcases List.mem_cons.1 hy with h3 | h3
      · exact show ppLt m2.prod x.prod from hp ▸ h3 ▸ h21
      · exact show ppLt m2.prod x.prod from
          hp ▸ ppLt_tr h21 ((List.pairwise_cons.1 h1).1 y h3)
    · exact show ppLt m2.prod x.prod from hp ▸ ha2 y hy

theorem msorted_filter {l : List Mono} (p : Mono → Bool) (h : MSorted l) :
    MSorted (l.filter p) :=
  List.Pairwise.sublist (List.filter_sublist l) h

theorem toCoeff_tail_zero {x : Mono} {t : List Mono} (h : MSorted (x :: t)) :
    toCoeff t x.prod = 0 := by
  refine toCoeff_eq_zero ?_
  intro m hm heq
  have hlt : ppLt x.prod m.prod := (List.pairwise_cons.1 h).1 m hm
  rw [heq] at hlt
  exact ppLt_irr x.prod hlt

theorem toCoeff_head_ne_zero {x : Mono} {t : List Mono} (hs : MSorted (x :: t))
    (hz : ∀ m ∈ x :: t, m.coeff ≠ 0) : toCoeff (x :: t) x.prod ≠ 0 := by
  rw [toCoeff, if_pos rfl, toCoeff_tail_zero hs, add_zero]
  exact hz x (List.mem_cons_self x t)

theorem toCoeff_all_gt_zero {y : Mono} {b : List Mono} {p : PP} (hsy : MSorted (y :: b))
    (hlt : ppLt p y.prod) : toCoeff (y :: b) p = 0 := by
  refine toCoeff_eq_zero ?_
  intro m hm heq
  rcases List.mem_cons.1 hm with h3 | h3
  · rw [h3] at heq
    rw [← heq] at hlt
    exact ppLt_irr y.prod hlt
  · have h4 : ppLt y.prod m.prod := (List.pairwise_cons.1 hsy).1 m h3
    have h5 : ppLt p m.prod := ppLt_tr hlt h4
    rw [heq] at h5
    exact ppLt_irr p h5

theorem toCoeff_inj {l1 l2 : List Mono} (hs1 : MSorted l1) (hs2 : MSorted l2)
    (hz1 : ∀ m ∈ l1, m.coeff ≠ 0) (hz2 : ∀ m ∈ l2, m.coeff ≠ 0)
    (hc : ∀ q, toCoeff l1 q = toCoeff l2 q) : l1 = l2 := by
  induction l1 generalizing l2 with
  | nil =>
    cases l2 with
    | nil => rfl
    | cons m2 t2 =>
      exfalso
      refine toCoeff_head_ne_zero hs2 hz2 ?_
      rw [← hc m2.prod]
      rfl
  | cons m1 t1 ih =>
    cases l2 with
    | nil =>
      exfalso
      refine toCoeff_head_ne_zero hs1 hz1 ?_
      rw [hc m1.prod]
      rfl
    | cons m2 t2 =>
      have hp : m1.prod = m2.prod := by
        refine ppLt_conn (fun hlt => ?_) (fun hlt => ?_)
        · refine toCoeff_head_ne_zero hs1 hz1 ?_
          rw [hc m1.prod]
          exact toCoeff_all_gt_zero hs2 hlt
        · refine toCoeff_head_ne_zero hs2 hz2 ?_
          rw [← hc m2.prod]
          exact toCoeff_all_gt_zero hs1 hlt
      have hco : m1.coeff = m2.coeff := by
        have h1 := toCoeff_tail_zero hs1
        have h2 := toCoeff_tail_zero hs2
        have h3 := hc m1.prod
        rw [toCoeff, if_pos rfl, h1, add_zero, toCoeff, if_pos hp.symm, hp, h2, add_zero] at h3
        exact h3
      have hmm : m1 = m2 := by
        cases m1
        cases m2
        simp only [Mono.mk.injEq]
        exact ⟨hco, hp⟩
      have htl : t1 = t2 := by
        refine ih (List.pairwise_cons.1 hs1).2 (List.pairwise_cons.1 hs2).2
          (fun m hm2 => hz1 m (List.mem_cons_of_mem m1 hm2))
          (fun m hm2 => hz2 m (List.mem_cons_of_mem m2 hm2)) ?_
        intro q
        have h4 := hc q
        rw [toCoeff, toCoeff, hmm] at h4
        exact add_left_cancel h4
      rw [hmm, htl]

theorem mergeMlist_self : ∀ l : List Mono,
    mergeMlist l l = l.map (fun m => ⟨m.coeff + m.coeff, m.prod⟩)
  | [] => by simp [mergeMlist]
  | m :: t => by
    rw [mergeMlist, if_neg (ppLt_irr m.prod), if_pos rfl, mergeMlist_self t]
    rfl

theorem mergeMlist_neg_self : ∀ l : List Mono,
    mergeMlist l (negateMlist l) = l.map (fun m => ⟨0, m.prod⟩)
  | [] => by simp [mergeMlist, negateMlist]
  | m :: t => by
    show mergeMlist (m :: t) (⟨-m.coeff, m.prod⟩ :: negateMlist t) = _
    rw [mergeMlist, if_neg (ppLt_irr m.prod), if_pos rfl, mergeMlist_neg_self t]
    simp

/-- C3: for every buffer b, arith_buffer_normalize is idempotent:
normalizing twice yields the same term list and the same nterms as
normalizing once. -/
theorem claim_C3 (b : arith_buffer_t) :
    arith_buffer_normalize (arith_buffer_normalize b) = arith_buffer_normalize b := by
  simp [arith_buffer_normalize, List.filter_filter]

/-- C4: for every buffer b that has just been normalized,
arith_buffer_is_zero holds iff arith_buffer_size is 0, and every stored
node carries a non-zero coefficient (invariant I2). -/
theorem claim_C4 (b : arith_buffer_t) :
    (arith_buffer_is_zero (arith_buffer_normalize b) = true ↔
      arith_buffer_size (arith_buffer_normalize b) = 0)
    ∧ ∀ m ∈ (arith_buffer_normalize b).list, m.coeff ≠ 0 := by
  constructor
  · simp [arith_buffer_is_zero, arith_buffer_size]
  · intro m hm
    simp only [arith_buffer_normalize, List.mem_filter, decide_not] at hm
    simpa using hm.2

/-- C2: adding a buffer to itself doubles every coefficient (b then
denotes twice its previous polynomial), and subtracting a buffer from
itself yields, after normalization, the zero polynomial. -/
theorem claim_C2 (b : arith_buffer_t) :
    (arith_buffer_add_buffer b b).list = b.list.map (fun m => ⟨2 * m.coeff, m.prod⟩)
    ∧ (arith_buffer_normalize (arith_buffer_sub_buffer b b)).list = []
    ∧ arith_buffer_is_zero (arith_buffer_normalize (arith_buffer_sub_buffer b b)) = true := by
  refine ⟨?_, ?_, ?_⟩
  · simp only [arith_buffer_add_buffer, mergeMlist_self]
    refine List.map_congr_left ?_
    intro m _
    rw [two_mul]
  · simp only [arith_buffer_sub_buffer, arith_buffer_normalize, mergeMlist_neg_self]
    rw [List.filter_eq_nil_iff]
    intro m hm
    rcases List.mem_map.1 hm with ⟨y, _, hy⟩
    simp [← hy]
  · simp only [arith_buffer_sub_buffer, arith_buffer_normalize, mergeMlist_neg_self,
      arith_buffer_is_zero]
    rw [List.filter_eq_nil_iff.2]
    · rfl
    · intro m hm
      rcases List.mem_map.1 hm with ⟨y, _, hy⟩
      simp [← hy]

/-- C1: with b = x + 1 and b1 = x - 1, arith_buffer_mul_buffer followed
by arith_buffer_normalize leaves b holding exactly the monomials -1 (at
the empty product) and 1 at x^2, with size 2. -/
theorem claim_C1 :
    arith_buffer_normalize
      (arith_buffer_mul_buffer
        (arith_buffer_add_const (arith_buffer_add_var init_arith_buffer 0) 1)
        (arith_buffer_add_const (arith_buffer_add_var init_arith_buffer 0) (-1)))
      = ⟨2, [⟨-1, empty_pp⟩, ⟨1, ppMul (var_pp 0) (var_pp 0)⟩]⟩
    ∧ arith_buffer_size
      (arith_buffer_normalize
        (arith_buffer_mul_buffer
          (arith_buffer_add_const (arith_buffer_add_var init_arith_buffer 0) 1)
          (arith_buffer_add_const (arith_buffer_add_var init_arith_buffer 0) (-1)))) = 2 := by
  constructor <;>
  norm_num [init_arith_buffer, arith_buffer_add_const, arith_buffer_add_var,
    arith_buffer_add_pp, arith_buffer_mul_buffer, arith_buffer_normalize,
    arith_buffer_size, addMonoToList, ppLt, lexLt, ppDeg, ppMul, var_pp, empty_pp,
    List.foldl, List.filter, List.replicate]

theorem toCoeff_foldl_ins (r : PP) :
    ∀ (src l : List Mono) (q : PP),
    toCoeff (src.foldl (fun acc m => addMonoToList acc m.coeff (ppMul m.prod r)) l) q
      = toCoeff l q + toCoeff (src.map (fun m => ⟨m.coeff, ppMul m.prod r⟩)) q
  | [], l, q => by simp [toCoeff]
  | m :: t, l, q => by
    simp only [List.foldl_cons, List.map_cons, toCoeff]
    rw [toCoeff_foldl_ins r t (addMonoToList l m.coeff (ppMul m.prod r)) q,
      toCoeff_addMonoToList]
    ring

/-- C8: arith_buffer_add_pp_times_buffer applied with b1 equal to b
leaves b denoting p + r*p: at every power product q the coefficient of
the result is the coefficient of b plus the coefficient of
arith_buffer_mul_pp b r (the shifted copy r*p). -/
theorem claim_C8 (b : arith_buffer_t) (r q : PP) :
    toCoeff (arith_buffer_add_pp_times_buffer b b r).list q
      = toCoeff b.list q + toCoeff (arith_buffer_mul_pp b r).list q := by
  simp only [arith_buffer_add_pp_times_buffer, arith_buffer_mul_pp]
  exact toCoeff_foldl_ins r b.list b.list q

theorem normalize_eq_of_toCoeff {b1 b2 : arith_buffer_t} (h1 : MSorted b1.list)
    (h2 : MSorted b2.list) (h : ∀ q, toCoeff b1.list q = toCoeff b2.list q) :
    arith_buffer_normalize b1 = arith_buffer_normalize b2 := by
  have hl : b1.list.filter (fun m => m.coeff ≠ 0) = b2.list.filter (fun m => m.coeff ≠ 0) := by
    refine toCoeff_inj (msorted_filter _ h1) (msorted_filter _ h2) ?_ ?_ ?_
    · intro m hm
      simpa using (List.mem_filter.1 hm).2
    · intro m hm
      simpa using (List.mem_filter.1 hm).2
    · intro q
      rw [toCoeff_filter, toCoeff_filter]
      exact h q
  simp only [arith_buffer_normalize, hl]

/-- C5: buffer addition is associative and commutative up to
normalization: for sorted buffers a, b, c, normalizing
add(add(a,b),c) and add(a,add(b,c)) yields equal buffers, and likewise
for add(a,b) and add(b,a). -/
theorem claim_C5 (a b c : arith_buffer_t) (ha : MSorted a.list) (hb : MSorted b.list)
    (hc : MSorted c.list) :
    arith_buffer_normalize (arith_buffer_add_buffer (arith_buffer_add_buffer a b) c)
      = arith_buffer_normalize (arith_buffer_add_buffer a (arith_buffer_add_buffer b c))
    ∧ arith_buffer_normalize (arith_buffer_add_buffer a b)
      = arith_buffer_normalize (arith_buffer_add_buffer b a) := by
  constructor
  · refine normalize_eq_of_toCoeff ?_ ?_ ?_
    · exact msorted_mergeMlist (msorted_mergeMlist ha hb) hc
    · exact msorted_mergeMlist ha (msorted_mergeMlist hb hc)
    · intro q
      simp only [arith_buffer_add_buffer, toCoeff_mergeMlist]
      ring
  · refine normalize_eq_of_toCoeff ?_ ?_ ?_
    · exact msorted_mergeMlist ha hb
    · exact msorted_mergeMlist hb ha
    · intro q
      simp only [arith_buffer_add_buffer, toCoeff_mergeMlist]
      ring

theorem claim_C5_witness :
    MSorted (arith_buffer_t.mk 1 [⟨1, []⟩]).list
    ∧ MSorted (arith_buffer_t.mk 1 [⟨2, [1]⟩]).list
    ∧ MSorted (arith_buffer_t.mk 1 [⟨3, [0, 1]⟩]).list
    ∧ (arith_buffer_normalize (arith_buffer_add_buffer
          (arith_buffer_add_buffer ⟨1, [⟨1, []⟩]⟩ ⟨1, [⟨2, [1]⟩]⟩) ⟨1, [⟨3, [0, 1]⟩]⟩)
        = arith_buffer_normalize (arith_buffer_add_buffer ⟨1, [⟨1, []⟩]⟩
          (arith_buffer_add_buffer ⟨1, [⟨2, [1]⟩]⟩ ⟨1, [⟨3, [0, 1]⟩]⟩))
      ∧ arith_buffer_normalize (arith_buffer_add_buffer ⟨1, [⟨1, []⟩]⟩ ⟨1, [⟨2, [1]⟩]⟩)
        = arith_buffer_normalize (arith_buffer_add_buffer ⟨1, [⟨2, [1]⟩]⟩ ⟨1, [⟨1, []⟩]⟩)) :=
  ⟨by decide, by decide, by decide,
    claim_C5 ⟨1, [⟨1, []⟩]⟩ ⟨1, [⟨2, [1]⟩]⟩ ⟨1, [⟨3, [0, 1]⟩]⟩
      (by decide) (by decide) (by decide)⟩

theorem msorted_last_max {l : List Mono} {m : Mono} (hs : MSorted l)
    (hl : l.getLast? = some m) : ∀ x ∈ l, x = m ∨ MLt x m := by
  induction l with
  | nil => simp at hl
  | cons a t ih =>
    intro x hx
    cases t with
    | nil =>
      simp only [List.getLast?_singleton, Option.some.injEq] at hl
      rcases List.mem_singleton.1 hx with rfl
      exact Or.inl hl
    | cons b t2 =>
      rw [List.getLast?_cons_cons] at hl
      rcases List.mem_cons.1 hx with rfl | hx2
      · right
        have hm : m ∈ b :: t2 := by
          rcases List.mem_getLast?_eq_getLast (show m ∈ (b :: t2).getLast? from hl) with
            ⟨hne, hxeq⟩
          rw [hxeq]
          exact List.getLast_mem hne
        exact (List.pairwise_cons.1 hs).1 m hm
      · exact ih (List.pairwise_cons.1 hs).2 hl x hx2

/-- C6: for a normalized buffer b (sorted list, nterms equal to the list
length), the degree is 0 when b is zero; otherwise it is the total
degree of the last term of the list, which is maximal in the deg-lex
order; and the degree of every constant buffer is 0. -/
theorem claim_C6 (b : arith_buffer_t) (hs : MSorted b.list)
    (hn : b.nterms = b.list.length) :
    (arith_buffer_is_zero b = true → arith_buffer_degree b = 0)
    ∧ (∀ m, b.list.getLast? = some m →
        arith_buffer_degree b = ppDeg m.prod ∧ ∀ m2 ∈ b.list, ¬ ppLt m.prod m2.prod)
    ∧ (∀ q : ℚ, b.list = [⟨q, empty_pp⟩] → arith_buffer_degree b = 0) := by
  refine ⟨?_, ?_, ?_⟩
  · intro hz
    have h0 : b.nterms = 0 := by simpa [arith_buffer_is_zero] using hz
    have he : b.list = [] := List.length_eq_zero.1 (by rw [← hn]; exact h0)
    simp [arith_buffer_degree, he]
  · intro m hm
    constructor
    · simp [arith_buffer_degree, hm]
    · intro m2 hm2
      rcases msorted_last_max hs hm m2 hm2 with rfl | hlt
      · exact ppLt_irr m2.prod
      · exact ppLt_asym hlt
  · intro q hq
    simp [arith_buffer_degree, hq, ppDeg, empty_pp]

theorem claim_C6_witness :
    MSorted (arith_buffer_t.mk 1 [⟨3, []⟩]).list
    ∧ (arith_buffer_t.mk 1 [⟨3, []⟩]).nterms = (arith_buffer_t.mk 1 [⟨3, []⟩]).list.length
    ∧ ((arith_buffer_is_zero ⟨1, [⟨3, []⟩]⟩ = true → arith_buffer_degree ⟨1, [⟨3, []⟩]⟩ = 0)
      ∧ (∀ m, (arith_buffer_t.mk 1 [⟨3, []⟩]).list.getLast? = some m →
          arith_buffer_degree ⟨1, [⟨3, []⟩]⟩ = ppDeg m.prod
          ∧ ∀ m2 ∈ (arith_buffer_t.mk 1 [⟨3, []⟩]).list, ¬ ppLt m.prod m2.prod)
      ∧ (∀ q : ℚ, (arith_buffer_t.mk 1 [⟨3, []⟩]).list = [⟨q, empty_pp⟩] →
          arith_buffer_degree ⟨1, [⟨3, []⟩]⟩ = 0)) :=
  ⟨by decide, by decide, claim_C6 ⟨1, [⟨3, []⟩]⟩ (by decide) (by decide)⟩

/-- C7 counterexample: in the spec scenario (b built over variables x = 0
and y = 1 by add_var x, add_var x, normalize, add_const -2, mul_var y,
normalize) the resulting terms are 2*x*y and -2*y, but they do NOT both
have total degree 2: the term -2*y has total degree 1. -/
theorem claim_C7_counterexample :
    ¬ (∀ m ∈ (arith_buffer_normalize (arith_buffer_mul_var (arith_buffer_add_const
        (arith_buffer_normalize (arith_buffer_add_var (arith_buffer_add_var
          init_arith_buffer 0) 0)) (-2)) 1)).list, ppDeg m.prod = 2) := by
  intro h
  have hlist : (arith_buffer_normalize (arith_buffer_mul_var (arith_buffer_add_const
      (arith_buffer_normalize (arith_buffer_add_var (arith_buffer_add_var
        init_arith_buffer 0) 0)) (-2)) 1)).list
      = [⟨-2, [0, 1]⟩, ⟨2, [1, 1]⟩] := by
    norm_num [init_arith_buffer, arith_buffer_add_const, arith_buffer_add_var,
      arith_buffer_add_pp, arith_buffer_mul_var, arith_buffer_mul_pp,
      arith_buffer_normalize, addMonoToList, ppLt, lexLt, ppDeg, ppMul, var_pp,
      empty_pp, List.filter, List.replicate]
  have h1 : ppDeg ([0, 1] : PP) = 2 := by
    have := h ⟨-2, [0, 1]⟩ (by rw [hlist]; exact List.mem_cons_self _ _)
    exact this
  simp [ppDeg] at h1

/-- C7 (amended): starting from the empty buffer over variables x = 0 and
y = 1, add_var x, add_var x, normalize yields the single term 2*x (size
1, degree 1); then add_const -2, mul_var y, normalize yields exactly the
terms -2*y (total degree 1) and 2*x*y (total degree 2), in that order,
ascending in the deg-lex order of the table (the order is decided by the
total degrees, which differ, so the lexicographic tie-break is not
exercised). -/
theorem claim_C7 :
    arith_buffer_normalize (arith_buffer_add_var (arith_buffer_add_var
        init_arith_buffer 0) 0) = ⟨1, [⟨2, var_pp 0⟩]⟩
    ∧ arith_buffer_size (arith_buffer_normalize (arith_buffer_add_var
        (arith_buffer_add_var init_arith_buffer 0) 0)) = 1
    ∧ arith_buffer_degree (arith_buffer_normalize (arith_buffer_add_var
        (arith_buffer_add_var init_arith_buffer 0) 0)) = 1
    ∧ arith_buffer_normalize (arith_buffer_mul_var (arith_buffer_add_const
        (arith_buffer_normalize (arith_buffer_add_var (arith_buffer_add_var
          init_arith_buffer 0) 0)) (-2)) 1)
      = ⟨2, [⟨-2, var_pp 1⟩, ⟨2, ppMul (var_pp 0) (var_pp 1)⟩]⟩
    ∧ ppDeg (var_pp 1) = 1
    ∧ ppDeg (ppMul (var_pp 0) (var_pp 1)) = 2
    ∧ ppLt (var_pp 1) (ppMul (var_pp 0) (var_pp 1)) := by
  refine ⟨?_, ?_, ?_, ?_, by decide, by decide, by decide⟩ <;>
  norm_num [init_arith_buffer, arith_buffer_add_const, arith_buffer_add_var,
    arith_buffer_add_pp, arith_buffer_mul_var, arith_buffer_mul_pp,
    arith_buffer_normalize, arith_buffer_size, arith_buffer_degree,
    addMonoToList, ppLt, lexLt, ppDeg, ppMul, var_pp, empty_pp,
    List.filter, List.replicate]

theorem subst_ctx_lookup_ok : ∀ (l : List (Int × Int)) (x : Int),
    (∀ p ∈ l, 0 ≤ p.2) →
    ((subst_ctx_lookup l x = NULL_TERM ↔ l.find? (fun p => p.1 == x) = none)
    ∧ ∀ v, (l.find? (fun p => p.1 == x)).map (fun p => p.2) = some v →
        subst_ctx_lookup l x = v)
  | [], x, h => by simp [subst_ctx_lookup]
  | (y, w) :: t, x, h => by
    by_cases hyx : y = x
    · have hw : 0 ≤ w := h (y, w) (List.mem_cons_self _ _)
      constructor
      · rw [subst_ctx_lookup, if_pos hyx]
        rw [List.find?_cons_of_pos _ (by simpa using hyx)]
        simp only [NULL_TERM]
        constructor
        · intro hww
          omega
        · intro hww
          exact absurd hww (by simp)
      · intro v hv
        rw [List.find?_cons_of_pos _ (by simpa using hyx)] at hv
        rw [subst_ctx_lookup, if_pos hyx]
        simpa using hv
    · have ht := subst_ctx_lookup_ok t x (fun p hp => h p (List.mem_cons_of_mem _ hp))
      rw [subst_ctx_lookup, if_neg hyx,
        List.find?_cons_of_neg _ (by simpa using hyx)]
      exact ht

/-- C10: for every renaming context whose stored bindings map to actual
variables (non-negative terms), renaming_ctx_lookup returns NULL_TERM
(-1) exactly when x is not renamed in the context, and otherwise returns
the variable the context maps x to. -/
theorem claim_C10 (ctx : renaming_ctx_t) (x : Int) (h : ∀ p ∈ ctx.subst, 0 ≤ p.2) :
    (renaming_ctx_lookup ctx x = NULL_TERM ↔ ctx_renames ctx x = none)
    ∧ ∀ v, ctx_renames ctx x = some v → renaming_ctx_lookup ctx x = v := by
  rcases subst_ctx_lookup_ok ctx.subst x h with ⟨h1, h2⟩
  constructor
  · rw [renaming_ctx_lookup, ctx_renames]
    rw [h1]
    simp
  · intro v hv
    exact h2 v hv

theorem claim_C10_witness :
    (∀ p ∈ (renaming_ctx_t.mk [((0 : Int), (5 : Int))]).subst, 0 ≤ p.2)
    ∧ ((renaming_ctx_lookup ⟨[(0, 5)]⟩ 0 = NULL_TERM ↔ ctx_renames ⟨[(0, 5)]⟩ 0 = none)
      ∧ ∀ v, ctx_renames ⟨[(0, 5)]⟩ 0 = some v → renaming_ctx_lookup ⟨[(0, 5)]⟩ 0 = v) :=
  ⟨by decide, claim_C10 ⟨[(0, 5)]⟩ 0 (by decide)⟩
